import Mathlib

/-!
Verification of the matrix arithmetic core (`src/matrix.py`).

The Python class `Matrix` is embedded shallowly: matrix entries are
rationals (exact arithmetic), Python exceptions become an explicit
`Except PyError` result, and each Python method becomes a Lean function
of the same name.  The constructor validation (`Matrix.__set_rows`) is
modelled by `Matrix.construct`; every place where the Python code calls
the `Matrix(...)` constructor, the embedding calls `Matrix.construct`,
so construction failures propagate exactly as the exceptions do.
-/

namespace MatrixMagic

/-- Python exception kinds raised by `matrix.py`, with their messages. -/
inductive PyError where
  | valueError (msg : String)
  | attributeError (msg : String)
  | zeroDivisionError (msg : String)
  | typeError (msg : String)
  | exception (msg : String)
  deriving DecidableEq, Repr

/-- Embeds the `Scalar` class: a wrapper around a single number
(`self.value = float(v)`). -/
structure Scalar where
  value : ℚ
  deriving DecidableEq, Repr

/-- Embeds the `Matrix` class data: the instance attributes `count_row`,
`count_col` and `rows` set by `Matrix.__set_rows`. -/
structure Matrix where
  count_row : Nat
  count_col : Nat
  rows : List (List ℚ)
  deriving DecidableEq, Repr

/-- The invariant `Matrix.__set_rows` establishes: the counts match the
stored rows, the matrix is non-empty, and the rows are rectangular. -/
def Matrix.WF (m : Matrix) : Prop :=
  m.count_row = m.rows.length ∧ 0 < m.count_row ∧ 0 < m.count_col ∧
    ∀ r ∈ m.rows, r.length = m.count_col

instance (m : Matrix) : Decidable m.WF := by
  unfold Matrix.WF; infer_instance

/-- Effectful map over a list in the `Except` monad, mirroring a Python
loop or comprehension whose body may raise. -/
def mapExcept (f : α → Except PyError β) : List α → Except PyError (List β)
  | [] => .ok []
  | a :: as => do
      let b ← f a
      let bs ← mapExcept f as
      .ok (b :: bs)

/-- Embeds `Matrix.__init__` / `Matrix.__set_rows`: validates the input
and builds the instance.  The Python loop compares `len(rows[i])` with
`len(rows[0])` for `i ≥ 1`; since row 0 trivially agrees with itself the
check is written over all rows. -/
def Matrix.construct (rows : List (List ℚ)) : Except PyError Matrix :=
  if rows.length = 0 then
    .error (.valueError "matrix cannot be empty")
  else if (rows.getD 0 []).length = 0 then
    .error (.valueError "matrix cannot be empty")
  else if rows.all (fun row => row.length = (rows.getD 0 []).length) then
    .ok ⟨rows.length, (rows.getD 0 []).length, rows⟩
  else
    .error (.valueError "all rows must be the same length")

/-- Embeds `Matrix.__validate_size`. -/
def Matrix.validate_size (m other : Matrix) : Except PyError Unit :=
  if m.count_row ≠ other.count_row then
    .error (.valueError "row count must be the same")
  else if m.count_col ≠ other.count_col then
    .error (.valueError "col count must be the same")
  else
    .ok ()

/-- Embeds `Matrix.__calculate_each_element`: combines entries at equal
positions with `operation` (which, like a Python callable, may raise —
float true division does on a zero divisor), then builds the result
through the validating constructor.  Python's `self.rows[i][j]` indexing
is modelled with `getD`; it is in bounds for well-formed matrices. -/
def Matrix.calculate_each_element (m other : Matrix)
    (operation : ℚ → ℚ → Except PyError ℚ) : Except PyError Matrix := do
  let rows ← mapExcept (fun i =>
    mapExcept (fun j =>
      operation ((m.rows.getD i []).getD j 0) ((other.rows.getD i []).getD j 0))
      (List.range m.count_col))
    (List.range m.count_row)
  Matrix.construct rows

/-- Embeds `Matrix.__add__`. -/
def Matrix.add (m other : Matrix) : Except PyError Matrix := do
  m.validate_size other
  m.calculate_each_element other (fun a b => .ok (a + b))

/-- Embeds `Matrix.__sub__`. -/
def Matrix.sub (m other : Matrix) : Except PyError Matrix := do
  m.validate_size other
  m.calculate_each_element other (fun a b => .ok (a - b))

/-- Embeds `Matrix.__matmul__`: checks the inner dimensions, then for
each cell multiplies row `i` of `m` with column `j` of `other` (both
wrapped as 1-row matrices built by the constructor, exactly as the
source does) and sums the products. -/
def Matrix.matmul (m other : Matrix) : Except PyError Matrix :=
  if m.count_col ≠ other.count_row then
    .error (.valueError
      "the col count in the first matrix must be equal to the row count in the second matrix")
  else do
    let rows ← mapExcept (fun i =>
      mapExcept (fun j => do
        let a ← Matrix.construct [m.rows.getD i []]
        let b ← Matrix.construct
          [(List.range other.count_row).map (fun k => (other.rows.getD k []).getD j 0)]
        let col ← a.calculate_each_element b (fun x y => .ok (x * y))
        .ok (col.rows.getD 0 []).sum)
        (List.range other.count_col))
      (List.range m.count_row)
    Matrix.construct rows

/-- The minor row data built inside `Matrix.__abs__` and
`Matrix.__get_inverse_matrix`: drop the row at index `r` and the entry
at index `c` of every remaining row (the comprehensions filter on
`_i != r` / `_j != c`). -/
def minorAt (rows : List (List ℚ)) (r c : Nat) : List (List ℚ) :=
  (rows.eraseIdx r).map (fun row => row.eraseIdx c)

/-- The recursion of `Matrix.__abs__` with the matrix size passed
explicitly: size 1 returns `rows[0][0]`, larger sizes expand along the
first column.  In the source each minor goes through the validating
constructor; for a rectangular square matrix of size `n ≥ 2` that
validation always succeeds and the minor has size `n - 1`, which this
explicit-size recursion records. -/
def detSized : Nat → List (List ℚ) → ℚ
  | 0, _ => 0
  | 1, rows => (rows.getD 0 []).getD 0 0
  | n + 2, rows =>
      ((List.range (n + 2)).map (fun i =>
        (-1 : ℚ) ^ i * ((rows.getD i []).getD 0 0) * detSized (n + 1) (minorAt rows i 0))).sum

/-- Embeds `Matrix.__abs__` (the determinant): requires a square
matrix, then runs the first-column cofactor expansion `detSized`. -/
def Matrix.abs (m : Matrix) : Except PyError ℚ :=
  if m.count_row ≠ m.count_col then
    .error (.attributeError "determinant supports only square matrix")
  else
    .ok (detSized m.count_row m.rows)

/-- Python float true division: raises `ZeroDivisionError` on a zero
divisor, otherwise divides exactly. -/
def pydiv (a b : ℚ) : Except PyError ℚ :=
  if b = 0 then .error (.zeroDivisionError "float division by zero")
  else .ok (a / b)

/-- The `Scalar` branch of `Matrix.__truediv__`: broadcast the scalar
into a constructed matrix of repeated values, then divide elementwise
with Python float division. -/
def Matrix.truedivScalar (m : Matrix) (other : Scalar) : Except PyError Matrix := do
  let sm ← Matrix.construct ((List.range m.count_row).map (fun _ =>
    (List.range m.count_col).map (fun _ => other.value)))
  m.calculate_each_element sm pydiv

/-- Embeds `Matrix.__get_inverse_matrix`: requires square, computes the
determinant, raises `ZeroDivisionError` when it is 0, otherwise builds
the adjugate — entry `[i][j]` is `(-1)^(i+j)` times the determinant of
the minor dropping row `j` and column `i` (transposed indexing), each
minor built by the validating constructor — and divides it by the
determinant as a `Scalar`. -/
def Matrix.get_inverse_matrix (m : Matrix) : Except PyError Matrix :=
  if m.count_row ≠ m.count_col then
    .error (.attributeError "determinant supports only square matrix")
  else do
    m.validate_size m
    let det ← m.abs
    if det = 0 then
      .error (.zeroDivisionError "determinant is 0")
    else do
      let adjRows ← mapExcept (fun i =>
        mapExcept (fun j => do
          let minor ← Matrix.construct (minorAt m.rows j i)
          let d ← minor.abs
          .ok ((-1 : ℚ) ^ (i + j) * d))
          (List.range m.count_col))
        (List.range m.count_row)
      let adj ← Matrix.construct adjRows
      adj.truedivScalar ⟨det⟩

/-- The runtime-dispatched operand of `Matrix.__truediv__`
(`Union[Scalar, Matrix]` in the source). -/
inductive MatrixOrScalar where
  | scalar (s : Scalar)
  | matrix (b : Matrix)

/-- Embeds `Matrix.__truediv__`: a `Scalar` divisor divides elementwise,
a `Matrix` divisor multiplies by its inverse. -/
def Matrix.truediv (m : Matrix) (other : MatrixOrScalar) : Except PyError Matrix :=
  match other with
  | .scalar s => m.truedivScalar s
  | .matrix b => do
      let binv ← b.get_inverse_matrix
      m.matmul binv

/-- The identity-matrix rows built in the `power.value == 0` branch of
`Matrix.__pow__`: outer comprehension over `count_row`, inner over
`count_col`. -/
def identityRows (nr nc : Nat) : List (List ℚ) :=
  (List.range nr).map (fun i =>
    (List.range nc).map (fun j => if j = i then (1 : ℚ) else 0))

/-- The recursion of `Matrix.__pow__` on an integer exponent (after the
modulo, operand-type and integrality checks have passed; the recursive
calls re-enter with integer exponents, so those checks pass again):
exponent 0 returns the identity for a square matrix, 1 returns the
matrix itself, `p ≥ 2` recurses and right-multiplies, and a negative
exponent inverts and recurses on the negation. -/
def Matrix.powInt (m : Matrix) (p : Int) : Except PyError Matrix :=
  if p = 0 then
    if m.count_row ≠ m.count_col then
      .error (.valueError "power 0 supports only square matrix")
    else
      Matrix.construct (identityRows m.count_row m.count_col)
  else if p = 1 then
    .ok m
  else if 2 ≤ p then do
    let prev ← m.powInt (p - 1)
    prev.matmul m
  else if p < 0 then do
    let inv ← m.get_inverse_matrix
    inv.powInt (-p)
  else
    .error (.exception "unexpected error")
termination_by 2 * p.natAbs + (if p < 0 then 1 else 0)
decreasing_by
  · have h3 : ¬(p - 1 < 0) := by omega
    have h4 : ¬(p < 0) := by omega
    simp only [if_neg h3, if_neg h4]
    omega
  · have hneg : p < 0 := by omega
    have h3 : ¬(-p < 0) := by omega
    rw [if_pos hneg, if_neg h3, Int.natAbs_neg]
    omega

/-- Embeds `Matrix.__pow__`: rejects a modulo argument, requires an
integer exponent (`power.value.is_integer()`), then runs the integer
recursion `Matrix.powInt`. -/
def Matrix.pow (m : Matrix) (power : Scalar) (modulo : Option ℚ) :
    Except PyError Matrix :=
  if modulo ≠ none then
    .error (.valueError "modulo is not supported")
  else if power.value.den ≠ 1 then
    .error (.valueError "power supports only integer")
  else
    m.powInt power.value.num

theorem exbind_ok (a : α) (f : α → Except PyError β) :
    (Except.ok a >>= f) = f a := rfl

theorem exbind_error (e : PyError) (f : α → Except PyError β) :
    ((Except.error e : Except PyError α) >>= f) = .error e := rfl

theorem exbind_pure (x : Except PyError α) : (x >>= fun a => Except.ok a) = x := by
  cases x <;> rfl

theorem mapExcept_nil (f : α → Except PyError β) : mapExcept f [] = .ok [] := rfl

theorem mapExcept_cons (f : α → Except PyError β) (a : α) (as : List α) :
    mapExcept f (a :: as) =
      (f a >>= fun b => mapExcept f as >>= fun bs => .ok (b :: bs)) := rfl

theorem mapExcept_ok_of (f : α → Except PyError β) (g : α → β) :
    ∀ l : List α, (∀ a ∈ l, f a = .ok (g a)) → mapExcept f l = .ok (l.map g)
  | [], _ => rfl
  | a :: as, h => by
      rw [mapExcept_cons, h a (List.mem_cons_self a as),
        mapExcept_ok_of f g as (fun x hx => h x (List.mem_cons_of_mem a hx))]
      rfl

theorem getD_map_range (n i : Nat) (f : Nat → α) (d : α) (h : i < n) :
    ((List.range n).map f).getD i d = f i := by
  rw [List.getD_eq_getElem?_getD, List.getElem?_map, List.getElem?_range h]
  rfl

theorem getD_map_of_lt (f : α → β) (l : List α) (i : Nat) (d : β) (e : α)
    (h : i < l.length) :
    (l.map f).getD i d = f (l.getD i e) := by
  rw [List.getD_eq_getElem (l.map f) d (by simpa using h),
    List.getD_eq_getElem l e h, List.getElem_map]

theorem getD_eraseIdx (l : List α) (i a : Nat) (d : α) (hi : i < l.length) :
    (l.eraseIdx i).getD a d = if a < i then l.getD a d else l.getD (a + 1) d := by
  induction l generalizing i a with
  | nil => simp at hi
  | cons x xs ih =>
      cases i with
      | zero => simp [List.eraseIdx]
      | succ i' =>
          cases a with
          | zero => simp [List.eraseIdx]
          | succ a' =>
              have hi' : i' < xs.length := by simpa using hi
              simp only [List.eraseIdx, List.getD_cons_succ, ih i' a' hi',
                Nat.add_lt_add_iff_right]

theorem row_rebuild (r : List ℚ) (k : Nat) (hk : r.length = k) :
    (List.range k).map (fun j => r.getD j 0) = r := by
  apply List.ext_getElem
  · simp [hk]
  · intro n h1 h2
    rw [List.getElem_map, List.getElem_range,
      List.getD_eq_getElem r 0 h2]

theorem rows_rebuild (rows : List (List ℚ)) (k : Nat)
    (hk : ∀ r ∈ rows, r.length = k) :
    (List.range rows.length).map (fun i =>
      (List.range k).map (fun j => ((rows.getD i []).getD j 0))) = rows := by
  apply List.ext_getElem
  · simp
  · intro n h1 h2
    rw [List.getElem_map, List.getElem_range,
      List.getD_eq_getElem rows [] h2]
    exact row_rebuild _ k (hk _ (List.getElem_mem h2))

theorem construct_eq_ok (rows : List (List ℚ)) (k : Nat) (hne : rows ≠ [])
    (hk : 0 < k) (hlen : ∀ r ∈ rows, r.length = k) :
    Matrix.construct rows = .ok ⟨rows.length, k, rows⟩ := by
  match rows, hne with
  | r :: rs, _ =>
      have hr : r.length = k := hlen r (List.mem_cons_self r rs)
      unfold Matrix.construct
      rw [if_neg (by simp), if_neg (by simp [List.getD_cons_zero, hr]; omega),
        if_pos]
      · simp [List.getD_cons_zero, hr]
      · rw [List.all_eq_true]
        intro x hx
        simp only [List.getD_cons_zero, hr, decide_eq_true_eq]
        exact hlen x hx

theorem construct_ok_shape (rows : List (List ℚ)) (m : Matrix)
    (h : Matrix.construct rows = .ok m) :
    m = ⟨rows.length, (rows.getD 0 []).length, rows⟩ ∧
      rows ≠ [] ∧ 0 < (rows.getD 0 []).length ∧
      ∀ r ∈ rows, r.length = (rows.getD 0 []).length := by
  unfold Matrix.construct at h
  split at h
  · exact absurd h (by simp)
  · split at h
    · exact absurd h (by simp)
    · split at h
      · rename_i h1 h2 h3
        refine ⟨by injection h with h; exact h.symm, ?_, by omega, ?_⟩
        · intro hnil; rw [hnil] at h1; exact h1 rfl
        · intro r hr
          rw [List.all_eq_true] at h3
          simpa using h3 r hr
      · exact absurd h (by simp)

theorem construct_wf (rows : List (List ℚ)) (m : Matrix)
    (h : Matrix.construct rows = .ok m) : m.WF := by
  obtain ⟨rfl, hne, hpos, hall⟩ := construct_ok_shape rows m h
  refine ⟨rfl, ?_, hpos, hall⟩
  cases rows with
  | nil => exact absurd rfl hne
  | cons r rs => simp

theorem length_row_of_WF (m : Matrix) (hm : m.WF) (i : Nat) (h : i < m.count_row) :
    (m.rows.getD i []).length = m.count_col := by
  obtain ⟨h1, h2, h3, h4⟩ := hm
  have hi : i < m.rows.length := by omega
  rw [List.getD_eq_getElem m.rows [] hi]
  exact h4 _ (List.getElem_mem hi)

theorem calc_pure (m other : Matrix) (f : ℚ → ℚ → ℚ)
    (h1 : 0 < m.count_row) (h2 : 0 < m.count_col) :
    m.calculate_each_element other (fun a b => .ok (f a b)) =
      .ok ⟨m.count_row, m.count_col,
        (List.range m.count_row).map (fun i =>
          (List.range m.count_col).map (fun j =>
            f ((m.rows.getD i []).getD j 0) ((other.rows.getD i []).getD j 0)))⟩ := by
  unfold Matrix.calculate_each_element
  rw [mapExcept_ok_of _
    (fun i => (List.range m.count_col).map (fun j =>
      f ((m.rows.getD i []).getD j 0) ((other.rows.getD i []).getD j 0)))
    (List.range m.count_row)
    (fun i _ => mapExcept_ok_of _ _ (List.range m.count_col) (fun j _ => rfl))]
  rw [exbind_ok, construct_eq_ok _ m.count_col (by simp; omega) h2
    (by intro r hr; simp only [List.mem_map] at hr; obtain ⟨i, _, rfl⟩ := hr; simp)]
  simp

theorem matmul_ok (a b : Matrix) (ha : a.WF) (hb : b.WF)
    (hab : a.count_col = b.count_row) :
    a.matmul b = .ok ⟨a.count_row, b.count_col,
      (List.range a.count_row).map (fun i =>
        (List.range b.count_col).map (fun j =>
          ((List.range a.count_col).map (fun k =>
            ((a.rows.getD i []).getD k 0) * ((b.rows.getD k []).getD j 0))).sum))⟩ := by
  have ha' := ha
  have hb' := hb
  obtain ⟨ha1, ha2, ha3, ha4⟩ := ha
  obtain ⟨hb1, hb2, hb3, hb4⟩ := hb
  unfold Matrix.matmul
  rw [if_neg (by omega)]
  have hcell : ∀ i < a.count_row, ∀ j < b.count_col,
      (Matrix.construct [a.rows.getD i []] >>= fun x =>
        Matrix.construct
          [(List.range b.count_row).map (fun k => (b.rows.getD k []).getD j 0)] >>= fun y =>
        x.calculate_each_element y (fun p q => .ok (p * q)) >>= fun col =>
        .ok (col.rows.getD 0 []).sum) =
      .ok (((List.range a.count_col).map (fun k =>
        ((a.rows.getD i []).getD k 0) * ((b.rows.getD k []).getD j 0))).sum) := by
    intro i hi j hj
    rw [construct_eq_ok [a.rows.getD i []] a.count_col (by simp) ha3
      (by intro r hr; simp only [List.mem_singleton] at hr; rw [hr]
          exact length_row_of_WF a ha' i hi)]
    rw [exbind_ok]
    rw [construct_eq_ok _ b.count_row (by simp) hb2
      (by intro r hr; simp only [List.mem_singleton] at hr; rw [hr]; simp)]
    rw [exbind_ok]
    rw [calc_pure _ _ _ (by simp) (by simpa using ha3)]
    rw [exbind_ok]
    have hr1 : List.range 1 = [0] := rfl
    simp only [List.length_singleton, hr1, List.map_cons, List.map_nil,
      List.getD_cons_zero]
    congr 1
    apply congrArg
    apply List.map_congr_left
    intro k hk
    rw [List.mem_range] at hk
    rw [getD_map_range b.count_row k _ 0 (by omega)]
  rw [mapExcept_ok_of _
    (fun i => (List.range b.count_col).map (fun j =>
      ((List.range a.count_col).map (fun k =>
        ((a.rows.getD i []).getD k 0) * ((b.rows.getD k []).getD j 0))).sum))
    (List.range a.count_row) ?_]
  · rw [exbind_ok, construct_eq_ok _ b.count_col (by simp; omega) hb3
      (by intro r hr; simp only [List.mem_map] at hr; obtain ⟨i, _, rfl⟩ := hr; simp)]
    simp
  · intro i hi
    rw [List.mem_range] at hi
    exact mapExcept_ok_of _ _ (List.range b.count_col)
      (fun j hj => hcell i hi j (List.mem_range.mp hj))

end MatrixMagic

/-- Square rational matrix in the Mathlib sense, used to state the
determinant and inverse correctness independently of the embedding. -/
abbrev RMat (n : Nat) : Type := Matrix (Fin n) (Fin n) ℚ

namespace MatrixMagic

/-- Mathlib view of stored row data as a square matrix. -/
def toMat (n : Nat) (rows : List (List ℚ)) : RMat n :=
  Matrix.of (fun i j => (rows.getD i []).getD j 0)

theorem toMat_apply (n : Nat) (rows : List (List ℚ)) (i j : Fin n) :
    toMat n rows i j = (rows.getD i []).getD j 0 := rfl

theorem val_succAbove {n : Nat} (r : Fin (n + 1)) (a : Fin n) :
    ((r.succAbove a : Fin (n + 1)) : ℕ) =
      if (a : ℕ) < (r : ℕ) then (a : ℕ) else (a : ℕ) + 1 := by
  rw [Fin.succAbove]
  split
  · rename_i h
    rw [if_pos (by rw [Fin.lt_def] at h; simpa using h), Fin.coe_castSucc]
  · rename_i h
    rw [if_neg (by rw [Fin.lt_def] at h; simpa using h), Fin.val_succ]

theorem toMat_minor {n : Nat} (rows : List (List ℚ)) (r c : Fin (n + 1))
    (hlen : rows.length = n + 1) (hrect : ∀ row ∈ rows, row.length = n + 1) :
    toMat n (minorAt rows r c) =
      (toMat (n + 1) rows).submatrix r.succAbove c.succAbove := by
  ext a b
  have hre : (r : ℕ) < rows.length := by rw [hlen]; exact r.isLt
  have hlen' : (rows.eraseIdx (r : ℕ)).length = n := by
    rw [List.length_eraseIdx, if_pos hre, hlen]
    omega
  have ha : (a : ℕ) < (rows.eraseIdx (r : ℕ)).length := by
    rw [hlen']
    exact a.isLt
  have hrowlen : ∀ idx : ℕ, idx < n + 1 → (c : ℕ) < (rows.getD idx []).length := by
    intro idx hidx
    have hidx' : idx < rows.length := by omega
    rw [List.getD_eq_getElem rows [] hidx', hrect _ (List.getElem_mem hidx')]
    exact c.isLt
  rw [toMat_apply, Matrix.submatrix_apply, toMat_apply, minorAt,
    getD_map_of_lt _ _ _ [] [] ha, getD_eraseIdx rows r a [] hre,
    val_succAbove r a, val_succAbove c b]
  by_cases hac : (a : ℕ) < (r : ℕ)
  · rw [if_pos hac, if_pos hac,
      getD_eraseIdx _ c b 0 (hrowlen a (by exact lt_of_lt_of_le a.isLt (by omega)))]
    by_cases hbc : (b : ℕ) < (c : ℕ)
    · rw [if_pos hbc, if_pos hbc]
    · rw [if_neg hbc, if_neg hbc]
  · rw [if_neg hac, if_neg hac,
      getD_eraseIdx _ c b 0 (hrowlen (a + 1) (by have := a.isLt; omega))]
    by_cases hbc : (b : ℕ) < (c : ℕ)
    · rw [if_pos hbc, if_pos hbc]
    · rw [if_neg hbc, if_neg hbc]

theorem list_range_map_sum (m : Nat) (f : ℕ → ℚ) :
    ((List.range m).map f).sum = ∑ i ∈ Finset.range m, f i := by
  induction m with
  | zero => simp
  | succ k ih =>
      rw [List.range_succ, List.map_append, List.sum_append, Finset.sum_range_succ, ih]
      simp

theorem detSized_eq_det : ∀ (n : Nat) (rows : List (List ℚ)),
    0 < n → rows.length = n → (∀ r ∈ rows, r.length = n) →
    detSized n rows = (toMat n rows).det := by
  intro n
  induction n with
  | zero => intro rows h; omega
  | succ k ih =>
      intro rows _ hlen hrect
      cases k with
      | zero =>
          rw [Matrix.det_fin_one]
          rfl
      | succ k' =>
          rw [Matrix.det_succ_column_zero]
          show ((List.range (k' + 2)).map _).sum = _
          rw [list_range_map_sum, Finset.sum_range]
          apply Finset.sum_congr rfl
          intro i _
          have hmlen : (minorAt rows (i : ℕ) 0).length = k' + 1 := by
            rw [minorAt, List.length_map, List.length_eraseIdx,
              if_pos (by rw [hlen]; exact i.isLt), hlen]
            omega
          have hmrect : ∀ r ∈ minorAt rows (i : ℕ) 0, r.length = k' + 1 := by
            intro r hr
            rw [minorAt, List.mem_map] at hr
            obtain ⟨row, hrow, rfl⟩ := hr
            have hrl : row.length = k' + 2 := hrect row (List.mem_of_mem_eraseIdx hrow)
            rw [List.length_eraseIdx, if_pos (by omega), hrl]
            omega
          have hm := toMat_minor rows i 0 hlen hrect
          rw [Fin.succAbove_zero] at hm
          simp only [Fin.val_zero] at hm
          rw [ih (minorAt rows (i : ℕ) 0) (by omega) hmlen hmrect, hm,
            toMat_apply, Fin.val_zero]

theorem truedivScalar_ok (m : Matrix) (s : Scalar) (hr : 0 < m.count_row)
    (hc : 0 < m.count_col) (hs : s.value ≠ 0) :
    m.truedivScalar s = .ok ⟨m.count_row, m.count_col,
      (List.range m.count_row).map (fun i =>
        (List.range m.count_col).map (fun j =>
          ((m.rows.getD i []).getD j 0) / s.value))⟩ := by
  unfold Matrix.truedivScalar
  rw [construct_eq_ok _ m.count_col (by simp; omega) hc
    (by intro r hrr; simp only [List.mem_map] at hrr; obtain ⟨i, _, rfl⟩ := hrr; simp)]
  rw [exbind_ok]
  unfold Matrix.calculate_each_element
  rw [mapExcept_ok_of _
    (fun i => (List.range m.count_col).map (fun j =>
      ((m.rows.getD i []).getD j 0) / s.value)) (List.range m.count_row) ?_]
  · rw [exbind_ok, construct_eq_ok _ m.count_col (by simp; omega) hc
      (by intro r hrr; simp only [List.mem_map] at hrr; obtain ⟨i, _, rfl⟩ := hrr; simp)]
    simp
  · intro i hi
    rw [List.mem_range] at hi
    apply mapExcept_ok_of
    intro j hj
    rw [List.mem_range] at hj
    show pydiv _ _ = _
    rw [getD_map_range m.count_row i _ [] hi, getD_map_range m.count_col j _ 0 hj]
    unfold pydiv
    rw [if_neg hs]

theorem inverse_ok (m : Matrix) (hWF : m.WF) (hsq : m.count_row = m.count_col)
    (h2 : 2 ≤ m.count_row) (hdet : detSized m.count_row m.rows ≠ 0) :
    m.get_inverse_matrix = .ok ⟨m.count_row, m.count_col,
      (List.range m.count_row).map (fun i =>
        (List.range m.count_col).map (fun j =>
          ((-1 : ℚ) ^ (i + j) * detSized (m.count_row - 1) (minorAt m.rows j i)) /
            detSized m.count_row m.rows))⟩ := by
  obtain ⟨h1, hr0, hc0, hall⟩ := hWF
  unfold Matrix.get_inverse_matrix
  rw [if_neg (by omega)]
  have hv : m.validate_size m = .ok () := by
    unfold Matrix.validate_size
    rw [if_neg (by omega), if_neg (by omega)]
  have habs : m.abs = .ok (detSized m.count_row m.rows) := by
    unfold Matrix.abs
    rw [if_neg (by omega)]
  rw [hv, exbind_ok, habs, exbind_ok, if_neg hdet]
  have hminor : ∀ i < m.count_row, ∀ j < m.count_col,
      (minorAt m.rows j i).length = m.count_row - 1 ∧
        ∀ r ∈ minorAt m.rows j i, r.length = m.count_col - 1 := by
    intro i hi j hj
    constructor
    · rw [minorAt, List.length_map, List.length_eraseIdx, if_pos (by omega)]
      omega
    · intro r hr
      rw [minorAt, List.mem_map] at hr
      obtain ⟨row, hrow, rfl⟩ := hr
      have hrl : row.length = m.count_col := hall row (List.mem_of_mem_eraseIdx hrow)
      rw [List.length_eraseIdx, if_pos (by omega)]
      omega
  rw [mapExcept_ok_of _
    (fun i => (List.range m.count_col).map (fun j =>
      (-1 : ℚ) ^ (i + j) * detSized (m.count_row - 1) (minorAt m.rows j i)))
    (List.range m.count_row) ?_]
  · rw [exbind_ok, construct_eq_ok _ m.count_col (by simp; omega) hc0
      (by intro r hrr; simp only [List.mem_map] at hrr; obtain ⟨i, _, rfl⟩ := hrr; simp)]
    rw [exbind_ok]
    simp only [List.length_map, List.length_range]
    rw [truedivScalar_ok ⟨m.count_row, m.count_col,
      (List.range m.count_row).map (fun i =>
        (List.range m.count_col).map (fun j =>
          (-1 : ℚ) ^ (i + j) * detSized (m.count_row - 1) (minorAt m.rows j i)))⟩
      ⟨detSized m.count_row m.rows⟩ hr0 hc0 hdet]
    apply congrArg
    apply congrArg
    apply List.map_congr_left
    intro i hi
    rw [List.mem_range] at hi
    apply List.map_congr_left
    intro j hj
    rw [List.mem_range] at hj
    show ((((List.range m.count_row).map _).getD i []).getD j 0) / _ = _
    rw [getD_map_range m.count_row i _ [] hi, getD_map_range m.count_col j _ 0 hj]
  · intro i hi
    rw [List.mem_range] at hi
    apply mapExcept_ok_of
    intro j hj
    rw [List.mem_range] at hj
    obtain ⟨hl, hrect⟩ := hminor i hi j hj
    rw [construct_eq_ok (minorAt m.rows j i) (m.count_col - 1)
      (by rw [← List.length_pos, hl]; omega) (by omega) hrect]
    rw [exbind_ok, hl]
    have habs2 : Matrix.abs ⟨m.count_row - 1, m.count_col - 1, minorAt m.rows j i⟩ =
        .ok (detSized (m.count_row - 1) (minorAt m.rows j i)) := by
      unfold Matrix.abs
      rw [if_neg (by simp; omega)]
    rw [habs2, exbind_ok]

theorem minor_shape (rows : List (List ℚ)) (n : Nat) (r c : Nat)
    (hlen : rows.length = n + 1) (hrect : ∀ row ∈ rows, row.length = n + 1)
    (hr : r < n + 1) (hc : c < n + 1) :
    (minorAt rows r c).length = n ∧ ∀ row ∈ minorAt rows r c, row.length = n := by
  constructor
  · rw [minorAt, List.length_map, List.length_eraseIdx, if_pos (by omega)]
    omega
  · intro row hrow
    rw [minorAt, List.mem_map] at hrow
    obtain ⟨row0, hrow0, rfl⟩ := hrow
    have h0 : row0.length = n + 1 := hrect row0 (List.mem_of_mem_eraseIdx hrow0)
    rw [List.length_eraseIdx, if_pos (by omega)]
    omega

theorem adjdiv_mul (n : Nat) (rows : List (List ℚ)) (h2 : 2 ≤ n)
    (hlen : rows.length = n) (hrect : ∀ r ∈ rows, r.length = n)
    (hdet : detSized n rows ≠ 0) (i j : Nat) (hi : i < n) (hj : j < n) :
    ((List.range n).map (fun k =>
      ((rows.getD i []).getD k 0) *
        (((-1 : ℚ) ^ (k + j) * detSized (n - 1) (minorAt rows j k)) /
          detSized n rows))).sum = if j = i then 1 else 0 := by
  obtain ⟨k2, rfl⟩ : ∃ k2, n = k2 + 2 := ⟨n - 2, by omega⟩
  have hdd : detSized (k2 + 2) rows = (toMat (k2 + 2) rows).det :=
    detSized_eq_det _ rows (by omega) hlen hrect
  have hdet' : (toMat (k2 + 2) rows).det ≠ 0 := by rw [← hdd]; exact hdet
  have hadj : ∀ (k j' : Nat) (hk : k < k2 + 2) (hj' : j' < k2 + 2),
      (-1 : ℚ) ^ (k + j') * detSized (k2 + 1) (minorAt rows j' k) =
        (toMat (k2 + 2) rows).adjugate ⟨k, hk⟩ ⟨j', hj'⟩ := by
    intro k j' hk hj'
    rw [Matrix.adjugate_fin_succ_eq_det_submatrix]
    obtain ⟨hml, hmr⟩ := minor_shape rows (k2 + 1) j' k hlen hrect hj' hk
    rw [detSized_eq_det (k2 + 1) _ (by omega) hml hmr]
    rw [toMat_minor rows ⟨j', hj'⟩ ⟨k, hk⟩ hlen hrect]
    rw [Nat.add_comm k j']
  rw [list_range_map_sum, Finset.sum_range]
  have hstep : ∀ kk : Fin (k2 + 2),
      ((rows.getD i []).getD (kk : ℕ) 0) *
          (((-1 : ℚ) ^ ((kk : ℕ) + j) * detSized (k2 + 1) (minorAt rows j (kk : ℕ))) /
            detSized (k2 + 2) rows) =
        toMat (k2 + 2) rows ⟨i, hi⟩ kk *
          ((toMat (k2 + 2) rows).adjugate kk ⟨j, hj⟩ / (toMat (k2 + 2) rows).det) := by
    intro kk
    rw [toMat_apply, ← hdd, hadj (kk : ℕ) j kk.isLt hj, Fin.eta]
  calc
    ∑ kk : Fin (k2 + 2),
        ((rows.getD i []).getD (kk : ℕ) 0) *
          (((-1 : ℚ) ^ ((kk : ℕ) + j) * detSized (k2 + 2 - 1) (minorAt rows j (kk : ℕ))) /
            detSized (k2 + 2) rows) =
        ∑ kk : Fin (k2 + 2),
          toMat (k2 + 2) rows ⟨i, hi⟩ kk *
            ((toMat (k2 + 2) rows).adjugate kk ⟨j, hj⟩ / (toMat (k2 + 2) rows).det) :=
      Finset.sum_congr rfl (fun kk _ => hstep kk)
    _ = (∑ kk : Fin (k2 + 2),
          toMat (k2 + 2) rows ⟨i, hi⟩ kk * (toMat (k2 + 2) rows).adjugate kk ⟨j, hj⟩) /
            (toMat (k2 + 2) rows).det := by
      rw [Finset.sum_div]
      apply Finset.sum_congr rfl
      intro kk _
      rw [mul_div_assoc]
    _ = ((toMat (k2 + 2) rows * (toMat (k2 + 2) rows).adjugate) ⟨i, hi⟩ ⟨j, hj⟩) /
          (toMat (k2 + 2) rows).det := by rw [Matrix.mul_apply]
    _ = ((toMat (k2 + 2) rows).det * (1 : RMat (k2 + 2)) ⟨i, hi⟩ ⟨j, hj⟩) /
          (toMat (k2 + 2) rows).det := by
      rw [Matrix.mul_adjugate, Matrix.smul_apply, smul_eq_mul]
    _ = (1 : RMat (k2 + 2)) ⟨i, hi⟩ ⟨j, hj⟩ := by
      rw [mul_comm, mul_div_assoc, div_self hdet', mul_one]
    _ = if j = i then 1 else 0 := by
      rw [Matrix.one_apply]
      rcases eq_or_ne i j with rfl | hne
      · rw [if_pos rfl, if_pos rfl]
      · rw [if_neg (by simp [Fin.mk.injEq]; omega), if_neg (fun h => hne h.symm)]

/-- C1 (amended to sizes ≥ 2): for every well-formed non-singular square
matrix of size at least 2, multiplying the matrix with its computed
inverse yields exactly the identity matrix of its size, over exact
rational arithmetic.  (For 1×1 matrices the source's inverse fails with
the empty-matrix `ValueError` instead; see the counterexample.) -/
theorem matmul_inverse_identity (m : Matrix) (hWF : m.WF)
    (hsq : m.count_row = m.count_col) (h2 : 2 ≤ m.count_row)
    (hdet : detSized m.count_row m.rows ≠ 0) :
    ∃ inv, m.get_inverse_matrix = .ok inv ∧
      m.matmul inv = .ok ⟨m.count_row, m.count_row,
        identityRows m.count_row m.count_row⟩ := by
  have hWF' := hWF
  obtain ⟨h1, hr0, hc0, hall⟩ := hWF'
  refine ⟨_, inverse_ok m hWF hsq h2 hdet, ?_⟩
  have hinvWF : Matrix.WF ⟨m.count_row, m.count_col,
      (List.range m.count_row).map (fun i =>
        (List.range m.count_col).map (fun j =>
          ((-1 : ℚ) ^ (i + j) * detSized (m.count_row - 1) (minorAt m.rows j i)) /
            detSized m.count_row m.rows))⟩ := by
    refine ⟨by simp, hr0, hc0, ?_⟩
    intro r hr
    simp only [List.mem_map] at hr
    obtain ⟨i, _, rfl⟩ := hr
    simp
  rw [matmul_ok m _ hWF hinvWF hsq.symm]
  simp only [Except.ok.injEq, Matrix.mk.injEq]
  refine ⟨trivial, hsq.symm, ?_⟩
  rw [← hsq]
  unfold identityRows
  apply List.map_congr_left
  intro i hi
  rw [List.mem_range] at hi
  apply List.map_congr_left
  intro j hj
  rw [List.mem_range] at hj
  have hcell : ∀ k ∈ List.range m.count_row,
      (m.rows.getD i []).getD k 0 *
        ((((List.range m.count_row).map (fun i0 =>
          (List.range m.count_row).map (fun j0 =>
            ((-1 : ℚ) ^ (i0 + j0) * detSized (m.count_row - 1) (minorAt m.rows j0 i0)) /
              detSized m.count_row m.rows))).getD k []).getD j 0) =
      (m.rows.getD i []).getD k 0 *
        (((-1 : ℚ) ^ (k + j) * detSized (m.count_row - 1) (minorAt m.rows j k)) /
          detSized m.count_row m.rows) := by
    intro k hk
    rw [List.mem_range] at hk
    rw [getD_map_range m.count_row k _ [] hk, getD_map_range m.count_row j _ 0 hj]
  rw [List.map_congr_left hcell]
  exact adjdiv_mul m.count_row m.rows h2 h1.symm
    (fun r hr => by rw [hall r hr, hsq]) hdet i j hi hj

theorem validate_size_ok (m other : Matrix) (h1 : m.count_row = other.count_row)
    (h2 : m.count_col = other.count_col) : m.validate_size other = .ok () := by
  unfold Matrix.validate_size
  rw [if_neg (by omega), if_neg (by omega)]

theorem validate_size_err_row (m other : Matrix) (h : m.count_row ≠ other.count_row) :
    m.validate_size other = .error (.valueError "row count must be the same") := by
  unfold Matrix.validate_size
  rw [if_pos h]

theorem validate_size_err_col (m other : Matrix) (h1 : m.count_row = other.count_row)
    (h : m.count_col ≠ other.count_col) :
    m.validate_size other = .error (.valueError "col count must be the same") := by
  unfold Matrix.validate_size
  rw [if_neg (by omega), if_pos h]

theorem identityRows_length (nr nc : Nat) : (identityRows nr nc).length = nr := by
  simp [identityRows]

theorem identityRows_row_length (nr nc : Nat) :
    ∀ r ∈ identityRows nr nc, r.length = nc := by
  intro r hr
  simp only [identityRows, List.mem_map] at hr
  obtain ⟨i, _, rfl⟩ := hr
  simp

theorem construct_identityRows (n : Nat) (hn : 0 < n) :
    Matrix.construct (identityRows n n) = .ok ⟨n, n, identityRows n n⟩ := by
  rw [construct_eq_ok _ n
    (by rw [← List.length_pos, identityRows_length]; omega) hn
    (identityRows_row_length n n), identityRows_length]

theorem powInt_zero (m : Matrix) : m.powInt 0 =
    if m.count_row ≠ m.count_col then
      .error (.valueError "power 0 supports only square matrix")
    else Matrix.construct (identityRows m.count_row m.count_col) := by
  unfold Matrix.powInt
  rw [if_pos rfl]

theorem powInt_one (m : Matrix) : m.powInt 1 = .ok m := by
  unfold Matrix.powInt
  rw [if_neg (by omega), if_pos rfl]

theorem powInt_two_le (m : Matrix) (p : Int) (hp : 2 ≤ p) :
    m.powInt p = (m.powInt (p - 1) >>= fun prev => prev.matmul m) := by
  conv_lhs => rw [Matrix.powInt.eq_def]
  rw [if_neg (by omega), if_neg (by omega), if_pos hp]

theorem powInt_neg (m : Matrix) (p : Int) (hp : p < 0) :
    m.powInt p = (m.get_inverse_matrix >>= fun inv => inv.powInt (-p)) := by
  conv_lhs => rw [Matrix.powInt.eq_def]
  rw [if_neg (by omega), if_neg (by omega), if_neg (by omega), if_pos hp]

theorem pow_int_val (m : Matrix) (s : Scalar) (p : Int) (hs : s.value = (p : ℚ)) :
    m.pow s none = m.powInt p := by
  unfold Matrix.pow
  rw [if_neg (by simp), if_neg (by rw [hs]; simp [Rat.den_intCast]), hs,
    Rat.num_intCast]

theorem mapExcept_congr (f g : α → Except PyError β) (l : List α)
    (h : ∀ a ∈ l, f a = g a) : mapExcept f l = mapExcept g l := by
  induction l with
  | nil => rfl
  | cons a as ih =>
      rw [mapExcept_cons, mapExcept_cons, h a (List.mem_cons_self a as),
        ih (fun x hx => h x (List.mem_cons_of_mem a hx))]

/-- C2: the determinant (`Matrix.__abs__`) fails with the non-square
error exactly when `count_row ≠ count_col`; on a 1×1 matrix it returns
the sole entry; and on a square matrix of size ≥ 2 it returns the
first-column cofactor expansion, each minor dropping row `i` and column
0, the minors measured by the independent Mathlib determinant. -/
theorem determinant_spec (m : Matrix) (hWF : m.WF) :
    (m.count_row ≠ m.count_col →
      m.abs = .error (.attributeError "determinant supports only square matrix")) ∧
    (m.count_row = m.count_col → m.count_row = 1 →
      m.abs = .ok ((m.rows.getD 0 []).getD 0 0)) ∧
    (m.count_row = m.count_col → 2 ≤ m.count_row →
      m.abs = .ok (∑ i ∈ Finset.range m.count_row, (-1 : ℚ) ^ i *
        ((m.rows.getD i []).getD 0 0) *
          (toMat (m.count_row - 1) (minorAt m.rows i 0)).det)) := by
  obtain ⟨h1, hr0, hc0, hall⟩ := hWF
  refine ⟨?_, ?_, ?_⟩
  · intro hne
    unfold Matrix.abs
    rw [if_pos hne]
  · intro _ hone
    unfold Matrix.abs
    rw [if_neg (by omega), hone]
    rfl
  · intro hsq h2
    obtain ⟨k2, hk⟩ : ∃ k2, m.count_row = k2 + 2 := ⟨m.count_row - 2, by omega⟩
    unfold Matrix.abs
    rw [if_neg (by omega)]
    refine congrArg Except.ok ?_
    rw [hk, show k2 + 2 - 1 = k2 + 1 from rfl]
    show ((List.range (k2 + 2)).map (fun i =>
      (-1 : ℚ) ^ i * ((m.rows.getD i []).getD 0 0) *
        detSized (k2 + 1) (minorAt m.rows i 0))).sum = _
    rw [list_range_map_sum]
    apply Finset.sum_congr rfl
    intro i hi
    rw [Finset.mem_range] at hi
    obtain ⟨hml, hmr⟩ := minor_shape m.rows (k2 + 1) i 0 (by omega)
      (fun row hr => by rw [hall row hr]; omega) hi (by omega)
    rw [detSized_eq_det (k2 + 1) _ (by omega) hml hmr]

/-- C2 witness: the determinant of a concrete 2×2 matrix agrees with the
Mathlib determinant form of its cofactor expansion. -/
theorem determinant_spec_witness :
    (Matrix.mk 2 2 [[1, 2], [3, 4]]).WF ∧
    (Matrix.mk 2 2 [[1, 2], [3, 4]]).abs =
      .ok (∑ i ∈ Finset.range 2, (-1 : ℚ) ^ i *
        (([[(1 : ℚ), 2], [3, 4]].getD i []).getD 0 0) *
          (toMat 1 (minorAt [[(1 : ℚ), 2], [3, 4]] i 0)).det) :=
  ⟨by decide, (determinant_spec _ (by decide)).2.2 rfl (by decide)⟩

/-- C3 counterexample: the determinant of the matrix built from
`[[1,1,-1],[-2,0,1],[0,2,1]]` is not 3. -/
theorem determinant_example_ne_three :
    (Matrix.construct [[1, 1, -1], [-2, 0, 1], [0, 2, 1]] >>= Matrix.abs) ≠
      Except.ok (3 : ℚ) := by
  have h : (Matrix.construct [[(1 : ℚ), 1, -1], [-2, 0, 1], [0, 2, 1]] >>=
      Matrix.abs) = .ok 4 := by
    rw [construct_eq_ok _ 3 (by simp) (by omega)
      (by intro r hr; fin_cases hr <;> rfl), exbind_ok]
    unfold Matrix.abs
    rw [if_neg (by simp)]
    refine congrArg Except.ok ?_
    simp [detSized, minorAt, List.range_succ]
    norm_num
  rw [h]
  intro hcontra
  have h43 : (4 : ℚ) = 3 := by injection hcontra
  norm_num at h43

/-- C3 amended: the determinant of the matrix built from
`[[1,1,-1],[-2,0,1],[0,2,1]]` is 4. -/
theorem determinant_example_eq_four :
    (Matrix.construct [[1, 1, -1], [-2, 0, 1], [0, 2, 1]] >>= Matrix.abs) =
      Except.ok (4 : ℚ) := by
  rw [construct_eq_ok _ 3 (by simp) (by omega)
    (by intro r hr; fin_cases hr <;> rfl), exbind_ok]
  unfold Matrix.abs
  rw [if_neg (by simp)]
  refine congrArg Except.ok ?_
  simp [detSized, minorAt, List.range_succ]
  norm_num

/-- C6: construction succeeds exactly when there is at least one row and
all rows share one common non-zero length, and every construction
failure is a `ValueError` (the spec's `ShapeError`). -/
theorem construct_spec (rows : List (List ℚ)) :
    ((∃ m, Matrix.construct rows = .ok m) ↔
      rows ≠ [] ∧ ∃ L, 0 < L ∧ ∀ r ∈ rows, r.length = L) ∧
    (∀ e, Matrix.construct rows = .error e → ∃ msg, e = .valueError msg) := by
  constructor
  · constructor
    · rintro ⟨m, hm⟩
      obtain ⟨_, hne, hpos, hall⟩ := construct_ok_shape rows m hm
      exact ⟨hne, _, hpos, hall⟩
    · rintro ⟨hne, L, hL, hall⟩
      cases rows with
      | nil => exact absurd rfl hne
      | cons r rs => exact ⟨_, construct_eq_ok (r :: rs) L (by simp) hL hall⟩
  · intro e he
    unfold Matrix.construct at he
    split at he
    · injection he with h
      exact ⟨_, h.symm⟩
    · split at he
      · injection he with h
        exact ⟨_, h.symm⟩
      · split at he
        · exact Except.noConfusion he
        · injection he with h
          exact ⟨_, h.symm⟩

/-- C7: the inverse of a square matrix with determinant 0 fails with the
`ZeroDivisionError` raised by the explicit singularity check (the spec's
`SingularMatrixError`), before any elementwise division is reached. -/
theorem inverse_singular_spec (m : Matrix) (hsq : m.count_row = m.count_col)
    (hdet : detSized m.count_row m.rows = 0) :
    m.get_inverse_matrix = .error (.zeroDivisionError "determinant is 0") := by
  unfold Matrix.get_inverse_matrix
  rw [if_neg (by omega), validate_size_ok m m rfl rfl, exbind_ok]
  have habs : m.abs = .ok (detSized m.count_row m.rows) := by
    unfold Matrix.abs
    rw [if_neg (by omega)]
  rw [habs, exbind_ok, if_pos hdet]

/-- C7 witness: the inverse of `[[1,2],[2,4]]` fails with the
singularity error. -/
theorem inverse_singular_spec_witness :
    (Matrix.mk 2 2 [[1, 2], [2, 4]]).count_row =
        (Matrix.mk 2 2 [[1, 2], [2, 4]]).count_col ∧
    detSized 2 [[1, 2], [2, 4]] = 0 ∧
    (Matrix.mk 2 2 [[1, 2], [2, 4]]).get_inverse_matrix =
      .error (.zeroDivisionError "determinant is 0") :=
  ⟨rfl, by simp [detSized, minorAt, List.range_succ]; norm_num,
    inverse_singular_spec _ rfl (by simp [detSized, minorAt, List.range_succ]; norm_num)⟩

/-- C4: matrix-matrix multiplication fails with the inner-dimension
error when `a.count_col ≠ b.count_row`, and otherwise returns a matrix
of shape `a.count_row × b.count_col` whose cell `[i][j]` is the sum over
`k < a.count_col` of `a[i][k] * b[k][j]`. -/
theorem matmul_spec (a b : Matrix) (ha : a.WF) (hb : b.WF) :
    (a.count_col ≠ b.count_row → a.matmul b = .error (.valueError
      "the col count in the first matrix must be equal to the row count in the second matrix")) ∧
    (a.count_col = b.count_row → ∃ c, a.matmul b = .ok c ∧
      c.count_row = a.count_row ∧ c.count_col = b.count_col ∧
      ∀ i < a.count_row, ∀ j < b.count_col,
        (c.rows.getD i []).getD j 0 =
          ∑ k ∈ Finset.range a.count_col,
            ((a.rows.getD i []).getD k 0) * ((b.rows.getD k []).getD j 0)) := by
  constructor
  · intro hne
    unfold Matrix.matmul
    rw [if_pos hne]
  · intro hab
    refine ⟨_, matmul_ok a b ha hb hab, rfl, rfl, ?_⟩
    intro i hi j hj
    show (((List.range a.count_row).map _).getD i []).getD j 0 = _
    rw [getD_map_range _ i _ [] hi, getD_map_range _ j _ 0 hj, list_range_map_sum]

/-- C4 witness: `[[1,2],[3,4]] @ [[0,1],[1,0]]` is `[[2,1],[4,3]]`, and
the general cell formula instantiates at these matrices. -/
theorem matmul_spec_witness :
    (Matrix.mk 2 2 [[1, 2], [3, 4]]).WF ∧ (Matrix.mk 2 2 [[0, 1], [1, 0]]).WF ∧
    (Matrix.mk 2 2 [[1, 2], [3, 4]]).matmul (Matrix.mk 2 2 [[0, 1], [1, 0]]) =
      .ok (Matrix.mk 2 2 [[2, 1], [4, 3]]) ∧
    (∃ c, (Matrix.mk 2 2 [[1, 2], [3, 4]]).matmul (Matrix.mk 2 2 [[0, 1], [1, 0]]) =
        .ok c ∧
      c.count_row = 2 ∧ c.count_col = 2 ∧
      ∀ i < 2, ∀ j < 2, (c.rows.getD i []).getD j 0 =
        ∑ k ∈ Finset.range 2, (([[(1 : ℚ), 2], [3, 4]].getD i []).getD k 0) *
          (([[(0 : ℚ), 1], [1, 0]].getD k []).getD j 0)) := by
  refine ⟨by decide, by decide, ?_,
    (matmul_spec _ _ (by decide) (by decide)).2 rfl⟩
  rw [matmul_ok _ _ (by decide) (by decide) rfl]
  refine congrArg Except.ok ?_
  simp only [Matrix.mk.injEq]
  simp [List.range_succ]

/-- C5: raising a square matrix to the 0th power yields the identity
matrix of its size, and fails with the power-0 squareness error on a
non-square matrix; exponent 1 returns the matrix itself; and exponent
-1 returns exactly what the inverse computation returns. -/
theorem pow_spec (m : Matrix) (h0 : 0 < m.count_row) :
    (m.count_row = m.count_col →
      m.pow ⟨0⟩ none = .ok ⟨m.count_row, m.count_row,
        identityRows m.count_row m.count_row⟩) ∧
    (m.count_row ≠ m.count_col →
      m.pow ⟨0⟩ none = .error (.valueError "power 0 supports only square matrix")) ∧
    m.pow ⟨1⟩ none = .ok m ∧
    m.pow ⟨-1⟩ none = m.get_inverse_matrix := by
  have hp0 : m.pow ⟨0⟩ none = m.powInt 0 := pow_int_val m ⟨0⟩ 0 (by norm_num)
  have hp1 : m.pow ⟨1⟩ none = m.powInt 1 := pow_int_val m ⟨1⟩ 1 (by norm_num)
  have hpm1 : m.pow ⟨-1⟩ none = m.powInt (-1) := pow_int_val m ⟨-1⟩ (-1) (by norm_num)
  refine ⟨?_, ?_, ?_, ?_⟩
  · intro hsq
    rw [hp0, powInt_zero, if_neg (by omega), ← hsq, construct_identityRows _ h0]
  · intro hne
    rw [hp0, powInt_zero, if_pos hne]
  · rw [hp1, powInt_one]
  · rw [hpm1, powInt_neg m (-1) (by omega)]
    simp only [neg_neg, powInt_one]
    exact exbind_pure _

/-- C5 witness: the power base cases at a concrete 2×2 matrix. -/
theorem pow_spec_witness :
    0 < (Matrix.mk 2 2 [[1, 2], [3, 4]]).count_row ∧
    (Matrix.mk 2 2 [[1, 2], [3, 4]]).pow ⟨0⟩ none =
      .ok (Matrix.mk 2 2 (identityRows 2 2)) ∧
    (Matrix.mk 2 2 [[1, 2], [3, 4]]).pow ⟨1⟩ none =
      .ok (Matrix.mk 2 2 [[1, 2], [3, 4]]) ∧
    (Matrix.mk 2 2 [[1, 2], [3, 4]]).pow ⟨-1⟩ none =
      (Matrix.mk 2 2 [[1, 2], [3, 4]]).get_inverse_matrix :=
  ⟨by decide, (pow_spec _ (by decide)).1 rfl, (pow_spec _ (by decide)).2.2.1,
    (pow_spec _ (by decide)).2.2.2⟩

theorem powInt_nonsquare_two_le (m : Matrix) (hsq : m.count_row ≠ m.count_col) :
    ∀ p : Int, 2 ≤ p → m.powInt p = .error (.valueError
      "the col count in the first matrix must be equal to the row count in the second matrix") := by
  refine Int.le_induction ?_ ?_
  · rw [powInt_two_le m 2 (by omega), show (2 : Int) - 1 = 1 from rfl,
      powInt_one, exbind_ok]
    unfold Matrix.matmul
    rw [if_pos (by omega)]
  · intro n hn ih
    rw [powInt_two_le m (n + 1) (by omega),
      show (n : Int) + 1 - 1 = n by omega, ih]
    rfl

/-- C10: a non-square matrix raised to any integer power `p ≥ 2` fails
with the inner-dimension error of matrix multiplication (the recursion
bottoms at exponent 1 and then multiplies the matrix with itself);
exponent 0 fails with the explicit squareness check, negative exponents
fail inside the inverse, and non-integer exponents are rejected — so no
non-square matrix can be raised to any power other than 1. -/
theorem pow_nonsquare_spec (m : Matrix) (hsq : m.count_row ≠ m.count_col) :
    (∀ p : Int, 2 ≤ p → m.pow ⟨(p : ℚ)⟩ none = .error (.valueError
      "the col count in the first matrix must be equal to the row count in the second matrix")) ∧
    m.pow ⟨0⟩ none = .error (.valueError "power 0 supports only square matrix") ∧
    (∀ p : Int, p < 0 → m.pow ⟨(p : ℚ)⟩ none = .error (.attributeError
      "determinant supports only square matrix")) ∧
    (∀ s : Scalar, s.value.den ≠ 1 →
      m.pow s none = .error (.valueError "power supports only integer")) := by
  refine ⟨?_, ?_, ?_, ?_⟩
  · intro p hp
    rw [pow_int_val m _ p rfl]
    exact powInt_nonsquare_two_le m hsq p hp
  · rw [pow_int_val m ⟨0⟩ 0 (by norm_num), powInt_zero, if_pos hsq]
  · intro p hp
    rw [pow_int_val m _ p rfl, powInt_neg m p hp]
    have hinv : m.get_inverse_matrix =
        .error (.attributeError "determinant supports only square matrix") := by
      unfold Matrix.get_inverse_matrix
      rw [if_pos hsq]
    rw [hinv]
    rfl
  · intro s hs
    unfold Matrix.pow
    rw [if_neg (by simp), if_pos hs]

/-- C10 witness: the 1×2 matrix `[[1,2]]` cannot be squared, raised to
the 0th power, inverted via a negative power, or raised to 1/2. -/
theorem pow_nonsquare_spec_witness :
    (Matrix.mk 1 2 [[1, 2]]).count_row ≠ (Matrix.mk 1 2 [[1, 2]]).count_col ∧
    (Matrix.mk 1 2 [[1, 2]]).pow ⟨((2 : Int) : ℚ)⟩ none = .error (.valueError
      "the col count in the first matrix must be equal to the row count in the second matrix") ∧
    (Matrix.mk 1 2 [[1, 2]]).pow ⟨0⟩ none =
      .error (.valueError "power 0 supports only square matrix") ∧
    (Matrix.mk 1 2 [[1, 2]]).pow ⟨((-1 : Int) : ℚ)⟩ none =
      .error (.attributeError "determinant supports only square matrix") :=
  ⟨by decide, (pow_nonsquare_spec _ (by decide)).1 2 (by omega),
    (pow_nonsquare_spec _ (by decide)).2.1,
    (pow_nonsquare_spec _ (by decide)).2.2.1 (-1) (by omega)⟩

theorem add_entries (a b : Matrix) (h1 : a.count_row = b.count_row)
    (h2 : a.count_col = b.count_col) (ha2 : 0 < a.count_row) (ha3 : 0 < a.count_col) :
    a.add b = .ok ⟨a.count_row, a.count_col,
      (List.range a.count_row).map (fun i =>
        (List.range a.count_col).map (fun j =>
          ((a.rows.getD i []).getD j 0) + ((b.rows.getD i []).getD j 0)))⟩ := by
  unfold Matrix.add
  rw [validate_size_ok a b h1 h2, exbind_ok, calc_pure a b _ ha2 ha3]

theorem sub_entries (x b : Matrix) (h1 : x.count_row = b.count_row)
    (h2 : x.count_col = b.count_col) (hx2 : 0 < x.count_row) (hx3 : 0 < x.count_col) :
    x.sub b = .ok ⟨x.count_row, x.count_col,
      (List.range x.count_row).map (fun i =>
        (List.range x.count_col).map (fun j =>
          ((x.rows.getD i []).getD j 0) - ((b.rows.getD i []).getD j 0)))⟩ := by
  unfold Matrix.sub
  rw [validate_size_ok x b h1 h2, exbind_ok, calc_pure x b _ hx2 hx3]

/-- C8: addition and subtraction succeed exactly when the two matrices
share their shape, and subtracting `b` from `add(a, b)` gives back `a`
exactly. -/
theorem add_sub_spec (a b : Matrix) (ha : a.WF) (_hb : b.WF) :
    ((∃ c, a.add b = .ok c) ↔ a.count_row = b.count_row ∧ a.count_col = b.count_col) ∧
    ((∃ c, a.sub b = .ok c) ↔ a.count_row = b.count_row ∧ a.count_col = b.count_col) ∧
    (a.count_row = b.count_row → a.count_col = b.count_col →
      ∃ c, a.add b = .ok c ∧ c.sub b = .ok a) := by
  have ha' := ha
  obtain ⟨ha1, ha2, ha3, ha4⟩ := ha'
  refine ⟨?_, ?_, ?_⟩
  · constructor
    · rintro ⟨c, hc⟩
      by_contra hcon
      rw [not_and_or] at hcon
      unfold Matrix.add at hc
      rcases hcon with h | h
      · rw [validate_size_err_row a b h, exbind_error] at hc
        exact Except.noConfusion hc
      · by_cases hr : a.count_row = b.count_row
        · rw [validate_size_err_col a b hr h, exbind_error] at hc
          exact Except.noConfusion hc
        · rw [validate_size_err_row a b hr, exbind_error] at hc
          exact Except.noConfusion hc
    · rintro ⟨h1, h2⟩
      exact ⟨_, add_entries a b h1 h2 ha2 ha3⟩
  · constructor
    · rintro ⟨c, hc⟩
      by_contra hcon
      rw [not_and_or] at hcon
      unfold Matrix.sub at hc
      rcases hcon with h | h
      · rw [validate_size_err_row a b h, exbind_error] at hc
        exact Except.noConfusion hc
      · by_cases hr : a.count_row = b.count_row
        · rw [validate_size_err_col a b hr h, exbind_error] at hc
          exact Except.noConfusion hc
        · rw [validate_size_err_row a b hr, exbind_error] at hc
          exact Except.noConfusion hc
    · rintro ⟨h1, h2⟩
      exact ⟨_, sub_entries a b h1 h2 ha2 ha3⟩
  · intro h1 h2
    refine ⟨⟨a.count_row, a.count_col,
      (List.range a.count_row).map (fun i =>
        (List.range a.count_col).map (fun j =>
          ((a.rows.getD i []).getD j 0) + ((b.rows.getD i []).getD j 0)))⟩,
      add_entries a b h1 h2 ha2 ha3, ?_⟩
    rw [show (Matrix.mk a.count_row a.count_col
        ((List.range a.count_row).map (fun i =>
          (List.range a.count_col).map (fun j =>
            ((a.rows.getD i []).getD j 0) + ((b.rows.getD i []).getD j 0))))).sub b =
      .ok ⟨a.count_row, a.count_col,
        (List.range a.count_row).map (fun i =>
          (List.range a.count_col).map (fun j =>
            ((((List.range a.count_row).map (fun i0 =>
              (List.range a.count_col).map (fun j0 =>
                ((a.rows.getD i0 []).getD j0 0) +
                  ((b.rows.getD i0 []).getD j0 0)))).getD i []).getD j 0) -
              ((b.rows.getD i []).getD j 0)))⟩ from
      sub_entries _ b h1 h2 ha2 ha3]
    have key : ∀ rowsX : List (List ℚ), rowsX = a.rows →
        (Except.ok (Matrix.mk a.count_row a.count_col rowsX) :
          Except PyError Matrix) = .ok a := by
      rintro _ rfl
      rfl
    apply key
    have hcell2 : ∀ i ∈ List.range a.count_row,
        (List.range a.count_col).map (fun j =>
          ((((List.range a.count_row).map (fun i0 =>
            (List.range a.count_col).map (fun j0 =>
              ((a.rows.getD i0 []).getD j0 0) +
                ((b.rows.getD i0 []).getD j0 0)))).getD i []).getD j 0) -
            ((b.rows.getD i []).getD j 0)) =
        (List.range a.count_col).map (fun j => (a.rows.getD i []).getD j 0) := by
      intro i hi
      rw [List.mem_range] at hi
      apply List.map_congr_left
      intro j hj
      rw [List.mem_range] at hj
      rw [getD_map_range _ i _ [] hi, getD_map_range _ j _ 0 hj,
        add_sub_cancel_right]
    rw [List.map_congr_left hcell2, show a.count_row = a.rows.length from ha1]
    exact rows_rebuild a.rows a.count_col ha4

/-- C8 witness: the round trip at two concrete 2×2 matrices. -/
theorem add_sub_spec_witness :
    (Matrix.mk 2 2 [[1, 2], [3, 4]]).WF ∧ (Matrix.mk 2 2 [[5, 6], [7, 8]]).WF ∧
    ∃ c, (Matrix.mk 2 2 [[1, 2], [3, 4]]).add (Matrix.mk 2 2 [[5, 6], [7, 8]]) =
        .ok c ∧
      c.sub (Matrix.mk 2 2 [[5, 6], [7, 8]]) = .ok (Matrix.mk 2 2 [[1, 2], [3, 4]]) :=
  ⟨by decide, by decide,
    (add_sub_spec _ _ (by decide) (by decide)).2.2 rfl rfl⟩

/-- C9: dividing any well-formed matrix by the scalar 0 fails with the
float division-by-zero error rather than producing non-finite entries
(Python float division raises on a zero divisor). -/
theorem truediv_zero_spec (m : Matrix) (hr : 0 < m.count_row) (hc : 0 < m.count_col) :
    m.truediv (.scalar ⟨0⟩) = .error (.zeroDivisionError "float division by zero") := by
  show m.truedivScalar ⟨0⟩ = _
  unfold Matrix.truedivScalar
  rw [construct_eq_ok _ m.count_col (by simp; omega) hc
    (by intro r hrr; simp only [List.mem_map] at hrr; obtain ⟨i, _, rfl⟩ := hrr; simp)]
  rw [exbind_ok]
  unfold Matrix.calculate_each_element
  have hop : ∀ i ∈ List.range m.count_row,
      mapExcept (fun j => pydiv ((m.rows.getD i []).getD j 0)
        (((Matrix.mk ((List.range m.count_row).map (fun _ =>
            (List.range m.count_col).map (fun _ => (⟨0⟩ : Scalar).value))).length
          m.count_col
          ((List.range m.count_row).map (fun _ =>
            (List.range m.count_col).map (fun _ => (⟨0⟩ : Scalar).value)))).rows.getD
              i []).getD j 0))
        (List.range m.count_col) =
      mapExcept (fun j => pydiv ((m.rows.getD i []).getD j 0) 0)
        (List.range m.count_col) := by
    intro i hi
    rw [List.mem_range] at hi
    apply mapExcept_congr
    intro j hj
    rw [List.mem_range] at hj
    show pydiv _ ((((List.range m.count_row).map (fun _ =>
      (List.range m.count_col).map (fun _ => (0 : ℚ)))).getD i []).getD j 0) = _
    rw [getD_map_range _ i _ [] hi, getD_map_range _ j _ 0 hj]
  rw [mapExcept_congr _ _ _ hop]
  obtain ⟨nr, hnr⟩ : ∃ nr, m.count_row = nr + 1 := ⟨m.count_row - 1, by omega⟩
  obtain ⟨nc, hnc⟩ : ∃ nc, m.count_col = nc + 1 := ⟨m.count_col - 1, by omega⟩
  rw [hnr, hnc]
  rw [show List.range (nc + 1) = 0 :: List.map Nat.succ (List.range nc) from
    List.range_succ_eq_map nc]
  rw [show List.range (nr + 1) = 0 :: List.map Nat.succ (List.range nr) from
    List.range_succ_eq_map nr]
  simp only [mapExcept_cons]
  rw [show pydiv ((m.rows.getD 0 []).getD 0 0) 0 =
    .error (.zeroDivisionError "float division by zero") from by
      unfold pydiv
      rw [if_pos rfl]]
  rfl

/-- C9 witness: dividing a concrete 2×2 matrix by `Scalar 0` raises the
division-by-zero error. -/
theorem truediv_zero_spec_witness :
    0 < (Matrix.mk 2 2 [[1, 2], [3, 4]]).count_row ∧
    0 < (Matrix.mk 2 2 [[1, 2], [3, 4]]).count_col ∧
    (Matrix.mk 2 2 [[1, 2], [3, 4]]).truediv (.scalar ⟨0⟩) =
      .error (.zeroDivisionError "float division by zero") :=
  ⟨by decide, by decide, truediv_zero_spec _ (by decide) (by decide)⟩

/-- C1 counterexample: `[[1]]` is a well-formed non-singular square
matrix, yet the source's inverse fails — the adjugate construction
builds an empty minor matrix, which the validating constructor rejects —
so `multiply(m, inverse(m))` cannot be the identity for this `m`. -/
theorem inverse_one_by_one_counterexample :
    (Matrix.mk 1 1 [[1]]).WF ∧ detSized 1 [[1]] ≠ 0 ∧
    (Matrix.mk 1 1 [[1]]).get_inverse_matrix =
      .error (.valueError "matrix cannot be empty") ∧
    ¬ ∃ inv, (Matrix.mk 1 1 [[1]]).get_inverse_matrix = Except.ok inv := by
  refine ⟨by decide, by norm_num [detSized], rfl, ?_⟩
  rintro ⟨inv, h⟩
  rw [show (Matrix.mk 1 1 [[1]]).get_inverse_matrix =
    .error (.valueError "matrix cannot be empty") from rfl] at h
  exact Except.noConfusion h

/-- C1 witness: the inverse of `[[1,2],[3,4]]` exists and multiplying
by it yields the 2×2 identity matrix. -/
theorem matmul_inverse_identity_witness :
    (Matrix.mk 2 2 [[1, 2], [3, 4]]).WF ∧
    2 ≤ (Matrix.mk 2 2 [[1, 2], [3, 4]]).count_row ∧
    detSized 2 [[1, 2], [3, 4]] ≠ 0 ∧
    ∃ inv, (Matrix.mk 2 2 [[1, 2], [3, 4]]).get_inverse_matrix = .ok inv ∧
      (Matrix.mk 2 2 [[1, 2], [3, 4]]).matmul inv =
        .ok (Matrix.mk 2 2 (identityRows 2 2)) :=
  ⟨by decide, by decide, by simp [detSized, minorAt, List.range_succ]; norm_num,
    matmul_inverse_identity _ (by decide) rfl (by decide)
      (by simp [detSized, minorAt, List.range_succ]; norm_num)⟩

end MatrixMagic
